import Mathlib

/-!
Shallow embedding of `src/proxmoxbalancer/proxmoxbalancer.py` (class
`ProxmoxBalancer`), the Placement & Rebalancing Engine of
python-proxmoxbalancer.

Modelling conventions:
* Python dicts that preserve insertion order (`node_list`, each node's
  `vms` dict) are association lists `List (String × _)`; assignment to a
  key is `setEntry` (update in place when the key exists, append
  otherwise), iteration is list order, and `d[k]` is `List.lookup`.
* Points are exact rationals `ℚ` (Python floats; every operation the
  claims touch is +, -, *, /, abs and comparisons, which agree with ℚ on
  the inputs used).
* Python exceptions (`KeyError` from a missing dict key,
  `ZeroDivisionError`, `IndexError` from `rule.split(":")[1]`) are
  modelled with `Except Unit`: any raised exception is `.error ()`.
* Python truthiness tests on a host-name-or-`0`/`False` value
  (`if target:`) are modelled by `Option String`, with the extra caveat
  that the empty string is also falsy in Python, hence the explicit
  `t ≠ ""` guards.
* `print` diagnostics have no effect on state; the one the claims care
  about (inside `separate`) is surfaced as a `Bool` component.
-/

set_option linter.unusedVariables false

deriving instance DecidableEq for Except

namespace ProxmoxBalancer

/-- Split a character list at every occurrence of `sep`, keeping empty
pieces (so the result is never empty). -/
def splitChars (sep : Char) : List Char → List (List Char)
  | [] => [[]]
  | c :: cs =>
    let r := splitChars sep cs
    if c = sep then [] :: r
    else
      match r with
      | [] => [[c]]
      | p :: ps => (c :: p) :: ps

/-- Python's `str.split(sep)` for a one-character separator (the source
only splits on `":"` and `","`): split at every occurrence, keep empty
pieces, and `"".split(sep) == [""]`. -/
def pySplit (s : String) (sep : Char) : List String :=
  (splitChars sep s.data).map (fun l => ⟨l⟩)

/-!
Kernel-evaluable rational arithmetic.  The standard `Rat.add`, `Rat.sub`,
`Rat.mul` and `Rat.inv` are `@[irreducible]`, so a concrete program run
could not be settled by `decide`; the embedding therefore computes with
the `q*` functions below, each proved equal to the standard operation.
-/

/-- Rational addition, kernel-evaluable (proved equal to `+` below). -/
def qadd (a b : ℚ) : ℚ := mkRat (a.num * b.den + b.num * a.den) (a.den * b.den)

/-- Rational subtraction, kernel-evaluable (proved equal to `-` below). -/
def qsub (a b : ℚ) : ℚ := mkRat (a.num * b.den - b.num * a.den) (a.den * b.den)

/-- Rational multiplication, kernel-evaluable (proved equal to `*` below). -/
def qmul (a b : ℚ) : ℚ := mkRat (a.num * b.num) (a.den * b.den)

/-- Rational division, kernel-evaluable (proved equal to `/` below). -/
def qdiv (a b : ℚ) : ℚ := Rat.divInt (a.num * b.den) (a.den * b.num)

/-- Rational absolute value, kernel-evaluable (proved equal to `|·|` below). -/
def qabs (a : ℚ) : ℚ := if a < 0 then -a else a

/-- Sum of a list of rationals via `qadd` (proved equal to `List.sum` below). -/
def qsum (l : List ℚ) : ℚ := l.foldr qadd 0

theorem qadd_eq (a b : ℚ) : qadd a b = a + b := by
  rw [qadd, Rat.mkRat_eq_div]
  push_cast
  conv_rhs => rw [← Rat.num_div_den a, ← Rat.num_div_den b]
  rw [div_add_div _ _ (by positivity : (a.den : ℚ) ≠ 0) (by positivity : (b.den : ℚ) ≠ 0)]
  ring_nf

theorem qsub_eq (a b : ℚ) : qsub a b = a - b := by
  rw [qsub, Rat.mkRat_eq_div]
  push_cast
  conv_rhs => rw [← Rat.num_div_den a, ← Rat.num_div_den b]
  rw [div_sub_div _ _ (by positivity : (a.den : ℚ) ≠ 0) (by positivity : (b.den : ℚ) ≠ 0)]
  ring_nf

theorem qmul_eq (a b : ℚ) : qmul a b = a * b := by
  rw [qmul, Rat.mkRat_eq_div]
  push_cast
  conv_rhs => rw [← Rat.num_div_den a, ← Rat.num_div_den b]
  rw [div_mul_div_comm]

theorem qdiv_eq (a b : ℚ) : qdiv a b = a / b := by
  rw [qdiv, Rat.divInt_eq_div]
  push_cast
  rcases eq_or_ne b 0 with rfl | hb
  · simp
  · have ha := Rat.num_div_den a
    have hb2 := Rat.num_div_den b
    have had : (a.den : ℚ) ≠ 0 := by positivity
    have hbd : (b.den : ℚ) ≠ 0 := by positivity
    have ha2 : (a.num : ℚ) = a * a.den := (div_eq_iff had).mp ha
    have hb3 : (b.num : ℚ) = b * b.den := (div_eq_iff hbd).mp hb2
    rw [div_eq_div_iff (by positivity) hb, ha2, hb3]
    ring

theorem qabs_eq (a : ℚ) : qabs a = |a| := by
  by_cases h : a < 0
  · simp [qabs, h, abs_of_neg h]
  · simp [qabs, h, abs_of_nonneg (not_lt.mp h)]

theorem qsum_eq (l : List ℚ) : qsum l = l.sum := by
  induction l with
  | nil => rfl
  | cons x xs ih =>
    simp only [qsum, List.foldr] at ih ⊢
    rw [qadd_eq, ih, List.sum_cons]

/-- An entry of a node's `vms` dict: the fields of the Proxmox VM record
that the pass logic reads (`vm["status"]` and the `points` the balancer
stores into the entry). -/
structure VMI where
  status : String
  points : ℚ
deriving DecidableEq, Repr

/-- An entry of `node_list`: `points` (capacity), `used_points`, and the
`vms` dict keyed by VM name. -/
structure NodeInfo where
  points : ℚ
  used_points : ℚ
  vms : List (String × VMI)
deriving DecidableEq, Repr

/-- `self.node_list`: a Python dict from node name to node record. -/
abbrev Model := List (String × NodeInfo)

/-- An element of the `operations` lists built by `rule_pass` /
`balance_pass`: `{"vm_name": .., "host": .., "target": ..}`. -/
structure Operation where
  vm_name : String
  host : String
  target : String
deriving DecidableEq, Repr

/-- The sanitized `config["rules"]` dict: `__init__` guarantees the
`separate` key exists (defaulting it to the empty dict `{}`, which
iterates like `[]`), while `pin` and `unite` may be absent. -/
structure Rules where
  pin : Option (List String)
  separate : List String
  unite : Option (List String)
deriving DecidableEq, Repr

/-- The sanitized `self.config` after `__init__` applied its defaults
(only the keys the engine reads). -/
structure Config where
  method : String
  allowed_disparity : ℚ
  rules : Rules
  asyncFlag : Bool
  port : Nat
deriving DecidableEq, Repr

/-- `config["rules"]` as loaded from YAML, before `__init__` touches it:
every key may be absent. -/
structure RawRules where
  pin : Option (List String)
  separate : Option (List String)
  unite : Option (List String)
deriving DecidableEq, Repr

/-- The YAML config before `__init__` applies defaults (only the policy
keys the engine reads). -/
structure RawConfig where
  method : Option String
  allowed_disparity : Option ℚ
  rules : Option RawRules
  asyncFlag : Option Bool
  port : Option Nat
deriving DecidableEq, Repr

/-- The defaulting block of `__init__` (lines 44-56): `method` defaults
to `"current"`, `allowed_disparity` to `20`, `rules` to `{}`, `async` to
`True`, `rules["separate"]` to `{}`, `port` to `8006`.  `rules["pin"]`
and `rules["unite"]` are NOT defaulted. -/
def sanitize_config (raw : RawConfig) : Config :=
  let rr := raw.rules.getD ⟨none, none, none⟩
  { method := raw.method.getD "current"
    allowed_disparity := raw.allowed_disparity.getD 20
    rules := { pin := rr.pin, separate := rr.separate.getD [], unite := rr.unite }
    asyncFlag := raw.asyncFlag.getD true
    port := raw.port.getD 8006 }

/-- Python dict assignment `d[k] = v`: replace in place if `k` is
present, append otherwise. -/
def setEntry {α : Type} (k : String) (v : α) : List (String × α) → List (String × α)
  | [] => [(k, v)]
  | (k₂, v₂) :: rest => if k₂ = k then (k, v) :: rest else (k₂, v₂) :: setEntry k v rest

/-- Iterating a node's `vms` dict yields its VM names. -/
def node_vm_names (nd : NodeInfo) : List String :=
  nd.vms.map Prod.fst

/-- `self.node_list[n]["vms"]` as a name list; `[]` when the node is
absent (the callers only use present nodes, where Python would raise). -/
def node_vms_of (m : Model) (n : String) : List String :=
  match m.lookup n with
  | some nd => node_vm_names nd
  | none => []

/-- `self.node_list[n]["points"]` (capacity points); `0` when the node
is absent (the callers only pass present nodes, where Python would raise
`KeyError`). -/
def node_points (m : Model) (n : String) : ℚ :=
  ((m.lookup n).map NodeInfo.points).getD 0

/-- `self.node_list[n]["used_points"]`; `0` when the node is absent (the
callers only pass present nodes, where Python would raise `KeyError`). -/
def node_used_points (m : Model) (n : String) : ℚ :=
  ((m.lookup n).map NodeInfo.used_points).getD 0

/-- The pin loop of `get_rule` (lines 174-177): scan
`[rule.split(":") for rule in rules["pin"]]`, and on the first rule with
`vm_name == rule[0]` return `rule[1]` — an `IndexError` (modelled as
`.error ()`) if that rule has no `":"`. -/
def pin_lookup (vm_name : String) : List String → Except Unit (Option String)
  | [] => .ok none
  | r :: rest =>
    let parts := pySplit r ':'
    if parts.headD "" = vm_name then
      match parts[1]? with
      | some node => .ok (some node)
      | none => .error ()
    else pin_lookup vm_name rest

/-- The separate/unite loops of `get_rule` (lines 181-193): split each
group on `","` and return the first group containing `vm_name`. -/
def group_lookup (vm_name : String) (groups : List String) : Option (List String) :=
  (groups.map (fun r => pySplit r ',')).find? (fun g => g.contains vm_name)

/-- The tagged rule value `get_rule` returns:
`{"type": "pinned", "node": ..}`, `{"type": "separate", "rule": ..}`,
`{"type": "unite", "rule": ..}`. -/
inductive RuleR where
  | pinned (node : String)
  | sep (rule : List String)
  | unite (rule : List String)
deriving DecidableEq, Repr

/-- `get_rule` (lines 169-195): check pin rules, then separate groups,
then unite groups; `{}` (here `none`) when nothing matches.  An absent
`pin`/`unite` key (`"pin" in rules`) skips that category. -/
def get_rule (cfg : Config) (vm_name : String) : Except Unit (Option RuleR) :=
  match (match cfg.rules.pin with
         | some pins => pin_lookup vm_name pins
         | none => .ok none) with
  | .error e => .error e
  | .ok (some node) => .ok (some (.pinned node))
  | .ok none =>
    match group_lookup vm_name cfg.rules.separate with
    | some g => .ok (some (.sep g))
    | none =>
      match cfg.rules.unite with
      | some us =>
        match group_lookup vm_name us with
        | some g => .ok (some (.unite g))
        | none => .ok none
      | none => .ok none

/-- `is_pinned` (lines 198-200): `"type" in rule and rule["type"] == "pinned"`. -/
def is_pinned (cfg : Config) (vm_name : String) : Except Unit Bool :=
  match get_rule cfg vm_name with
  | .error e => .error e
  | .ok (some (.pinned _)) => .ok true
  | .ok _ => .ok false

/-- `should_separate` (lines 203-205). -/
def should_separate (rule : List String) (vm_name : String) (node_vms : List String) : Bool :=
  let other_vms := rule.filter (fun x => x ≠ vm_name)
  node_vms.any (fun item => other_vms.contains item)

/-- `should_unite` (lines 208-210). -/
def should_unite (rule : List String) (vm_name : String) (node_vms : List String) : Bool :=
  let other_vms := rule.filter (fun x => x ≠ vm_name)
  !(other_vms.all (fun item => node_vms.contains item))

/-- The loop of `get_lowest_candidate` (lines 218-224), carrying
(`candidate_host`, `lowest_point_score`).  The first candidate is taken
unconditionally (the `candidate_host == 0` test only fires before a
candidate was picked); afterwards a candidate replaces the running
choice iff its `points` are strictly greater than the running score. -/
def glc_loop (m : Model) : List String → Option String → ℚ → Option String × ℚ
  | [], cand, low => (cand, low)
  | c :: cs, cand, low =>
    let st₁ : Option String × ℚ :=
      if cand = none then (some c, node_points m c) else (cand, low)
    let st₂ : Option String × ℚ :=
      if node_points m c > st₁.2 then (some c, node_points m c) else st₁
    glc_loop m cs st₂.1 st₂.2

/-- `get_lowest_candidate` (lines 213-226): `none` models the falsy
sentinel `0` returned for an empty candidate list. -/
def get_lowest_candidate (m : Model) (candidates : List String) : Option String :=
  (glc_loop m candidates none 0).1

/-- The candidate list built by `unite` (lines 231-235): hosts whose
`vms` dict contains at least one name of `rule_vms = [x for x in rule]`
(note: `rule_vms` includes the violating VM itself). -/
def uniteCandidates (m : Model) (rule : List String) : List String :=
  (m.filter (fun p => (node_vm_names p.2).any (fun item => rule.contains item))).map Prod.fst

/-- `unite` (lines 229-236). -/
def unite (m : Model) (rule : List String) (vm_name : String) : Option String :=
  get_lowest_candidate m (uniteCandidates m rule)

/-- The candidate list built by `separate` (lines 240-245): hosts whose
`vms` dict contains none of the other group members. -/
def separateCandidates (m : Model) (rule : List String) (vm_name : String) : List String :=
  let other_vms := rule.filter (fun x => x ≠ vm_name)
  (m.filter (fun p => !((node_vm_names p.2).any (fun item => other_vms.contains item)))).map
    Prod.fst

/-- `separate` (lines 239-251): the chosen candidate, paired with
whether the `"No suitable candidate host found"` diagnostic was printed
(`len(candidates) <= 0`). -/
def separate (m : Model) (rule : List String) (vm_name : String) : Option String × Bool :=
  let candidates := separateCandidates m rule vm_name
  (get_lowest_candidate m candidates, candidates.isEmpty)

/-- `self.node_list[target]["vms"][vm_name] = entry` (lines 301-303):
update the target node's `vms` dict, leaving every other node alone. -/
def model_add_vm (target vm_name : String) (entry : VMI) (m : Model) : Model :=
  m.map (fun p =>
    if p.1 = target then (p.1, { p.2 with vms := setEntry vm_name entry p.2.vms }) else p)

/-- The `target` computed by the unite/separate/pinned branches of the
inner loop of `rule_pass` (lines 265-293); `none` is the initial falsy
`False` (kept when no branch fires, when `unite`/`separate` return the
falsy `0`, or when a pin rule names the current host or an unknown
host). -/
def rule_pass_target (m : Model) (node_name vm_name : String) : RuleR → Option String
  | .unite g =>
    if should_unite g vm_name (node_vms_of m node_name) then unite m g vm_name else none
  | .sep g =>
    if should_separate g vm_name (node_vms_of m node_name) then (separate m g vm_name).1
    else none
  | .pinned pnode =>
    if pnode ≠ node_name then
      (if (m.lookup pnode).isSome then some pnode else none)
    else none

/-- The body of the inner loop of `rule_pass` (lines 259-303) for one
`(node_name, vm_name)` pair: fetch the rule, compute `target` through
the unite/separate/pinned branches, and if `target` is truthy and
distinct from the current node, emit the Operation and copy the VM's
entry into the target's `vms` dict (the source entry is not touched). -/
def rule_pass_vm (cfg : Config) (node_name vm_name : String) (m : Model) :
    Except Unit (Option Operation × Model) :=
  match get_rule cfg vm_name with
  | .error e => .error e
  | .ok none => .ok (none, m)
  | .ok (some rule) =>
    match rule_pass_target m node_name vm_name rule with
    | some t =>
      if t ≠ "" ∧ t ≠ node_name then
        match (m.lookup node_name).bind (fun nd => nd.vms.lookup vm_name) with
        | some entry => .ok (some ⟨vm_name, node_name, t⟩, model_add_vm t vm_name entry m)
        | none => .error ()
      else .ok (none, m)
    | none => .ok (none, m)

/-- The inner loop of `rule_pass` over one node's VM names. -/
def rule_pass_vms (cfg : Config) (node_name : String) :
    List String → Model → List Operation → Except Unit (List Operation × Model)
  | [], m, ops => .ok (ops, m)
  | v :: rest, m, ops =>
    match rule_pass_vm cfg node_name v m with
    | .error e => .error e
    | .ok (none, m₂) => rule_pass_vms cfg node_name rest m₂ ops
    | .ok (some op, m₂) => rule_pass_vms cfg node_name rest m₂ (ops ++ [op])

/-- The outer loop of `rule_pass` over the node names; each node's VM
names are read from the model state reached when that node comes up
(`rule_pass` only ever adds entries to nodes other than the one being
iterated, so this snapshot matches Python's dict iteration). -/
def rule_pass_nodes (cfg : Config) :
    List String → Model → List Operation → Except Unit (List Operation × Model)
  | [], m, ops => .ok (ops, m)
  | n :: rest, m, ops =>
    match rule_pass_vms cfg n (node_vms_of m n) m ops with
    | .error e => .error e
    | .ok (ops₂, m₂) => rule_pass_nodes cfg rest m₂ ops₂

/-- `rule_pass` (lines 254-305): returns the operation list and the
final projected model. -/
def rule_pass (cfg : Config) (m : Model) : Except Unit (List Operation × Model) :=
  rule_pass_nodes cfg (m.map Prod.fst) m []

/-- `get_totals` (lines 84-98): the 5-tuple `(total_disparity,
total_nodes, total_points, total_used_points, avg_points)`;
`ZeroDivisionError` when the node list is empty. -/
def get_totals (m : Model) : Except Unit (ℚ × ℚ × ℚ × ℚ × ℚ) :=
  let total_points := qsum (m.map (fun p => p.2.points))
  let total_used_points := qsum (m.map (fun p => p.2.used_points))
  if m.length = 0 then .error ()
  else .ok (0, (m.length : ℚ), total_points, total_used_points,
            qdiv total_used_points (m.length : ℚ))

/-- The loop of `calculate_imbalance` (lines 111-117): accumulate
`total_disparity += abs(avg_points - points)`, then compute the
percentage deviation `abs(100 - points / avg_points * 100)` (used only
for a diagnostic print) — a `ZeroDivisionError` when `avg_points` is
zero. -/
def calc_imbalance_loop (avg : ℚ) : ℚ → List (String × NodeInfo) → Except Unit ℚ
  | td, [] => .ok td
  | td, p :: rest =>
    let points := p.2.used_points
    let td₂ := qadd td (qabs (qsub avg points))
    if avg = 0 then .error ()
    else calc_imbalance_loop avg td₂ rest

/-- `calculate_imbalance` (lines 102-118). -/
def calculate_imbalance (m : Model) : Except Unit ℚ :=
  match get_totals m with
  | .error e => .error e
  | .ok (td, _tn, _tp, _tu, avg) => calc_imbalance_loop avg td m

/-- The trigger test of `balance` (lines 429-432): the Load Balancer
Pass runs iff `total_disparity > len(node_list) * allowed_disparity`. -/
def balance_triggers (cfg : Config) (m : Model) : Except Unit Bool :=
  match calculate_imbalance m with
  | .error e => .error e
  | .ok d => .ok (decide (d > qmul (m.length : ℚ) cfg.allowed_disparity))

/-- The `skip` computation inside the candidate loop of
`calculate_best_host` (lines 146-156): skip a candidate node if some
separate group containing the VM has another member hosted there, or
some unite group containing the VM has another member NOT hosted
there. -/
def cbh_skip (sepRules uniRules : List (List String)) (vm_name : String)
    (nvms : List String) : Bool :=
  (sepRules.any (fun rule =>
      rule.contains vm_name && rule.any (fun w => w ≠ vm_name && nvms.contains w)))
  || (uniRules.any (fun rule =>
      rule.contains vm_name && rule.any (fun w => w ≠ vm_name && !(nvms.contains w))))

/-- The candidate loop of `calculate_best_host` (lines 141-166),
carrying (`new_host`, `new_host_points`): accept a non-skipped candidate
iff `new_points < used_points(current)` and (`new_points <
new_host_points` or `new_host_points == 0`). -/
def cbh_loop (m : Model) (sepRules uniRules : List (List String)) (current vm_name : String)
    (points : ℚ) : List String → Option String → ℚ → Option String
  | [], best, _ => best
  | n :: rest, best, best_pts =>
    if n = current then cbh_loop m sepRules uniRules current vm_name points rest best best_pts
    else if cbh_skip sepRules uniRules vm_name (node_vms_of m n) then
      cbh_loop m sepRules uniRules current vm_name points rest best best_pts
    else
      let new_points := qadd (node_used_points m n) points
      if new_points < node_used_points m current ∧ (new_points < best_pts ∨ best_pts = 0) then
        cbh_loop m sepRules uniRules current vm_name points rest (some n) new_points
      else cbh_loop m sepRules uniRules current vm_name points rest best best_pts

/-- `calculate_best_host` (lines 121-167).  NOTE (faithful to the
source): `rules["unite"]` is read unguarded, so an absent `unite` key is
a `KeyError` (`.error ()`); `rules["separate"]` always exists after
`__init__`.  The VM lookup and the internal `get_totals` call can also
raise. -/
def calculate_best_host (cfg : Config) (m : Model) (current_node vm_name : String) :
    Except Unit (Option String) :=
  match cfg.rules.unite with
  | none => .error ()
  | some uniteRaw =>
    let sepRules := cfg.rules.separate.map (fun r => pySplit r ',')
    let uniRules := uniteRaw.map (fun r => pySplit r ',')
    match (m.lookup current_node).bind (fun nd => nd.vms.lookup vm_name) with
    | none => .error ()
    | some vm =>
      if m.length = 0 then .error ()
      else .ok (cbh_loop m sepRules uniRules current_node vm_name vm.points
                  (m.map Prod.fst) none 0)

/-- `used_points` adjustment of `balance_pass` (lines 329-330) for one
node. -/
def model_adjust_used (name : String) (delta : ℚ) (m : Model) : Model :=
  m.map (fun p =>
    if p.1 = name then (p.1, { p.2 with used_points := qadd p.2.used_points delta }) else p)

/-- The inner loop of `balance_pass` (lines 314-330) over one node's VM
names: skip stopped VMs (Python's short-circuit `or` means `is_pinned`
is not evaluated for them), skip pinned VMs, otherwise consult
`calculate_best_host`, and on a truthy target emit the Operation and
shift `points` between the two nodes' `used_points` (the `vms` dicts are
not touched). -/
def balance_pass_vms (cfg : Config) (node_name : String) :
    List String → Model → List Operation → Except Unit (List Operation × Model)
  | [], m, ops => .ok (ops, m)
  | v :: rest, m, ops =>
    match (m.lookup node_name).bind (fun nd => nd.vms.lookup v) with
    | none => .error ()
    | some vm =>
      if vm.status = "stopped" then balance_pass_vms cfg node_name rest m ops
      else
        match is_pinned cfg v with
        | .error e => .error e
        | .ok true => balance_pass_vms cfg node_name rest m ops
        | .ok false =>
          match calculate_best_host cfg m node_name v with
          | .error e => .error e
          | .ok none => balance_pass_vms cfg node_name rest m ops
          | .ok (some t) =>
            if t ≠ "" then
              balance_pass_vms cfg node_name rest
                (model_adjust_used t vm.points (model_adjust_used node_name (-vm.points) m))
                (ops ++ [⟨v, node_name, t⟩])
            else balance_pass_vms cfg node_name rest m ops

/-- The outer loop of `balance_pass` over the node names (the `vms`
dicts are never mutated by this pass, so each node's VM-name snapshot at
arrival equals its pass-start snapshot). -/
def balance_pass_nodes (cfg : Config) :
    List String → Model → List Operation → Except Unit (List Operation × Model)
  | [], m, ops => .ok (ops, m)
  | n :: rest, m, ops =>
    match balance_pass_vms cfg n (node_vms_of m n) m ops with
    | .error e => .error e
    | .ok (ops₂, m₂) => balance_pass_nodes cfg rest m₂ ops₂

/-- `balance_pass` (lines 308-332). -/
def balance_pass (cfg : Config) (m : Model) : Except Unit (List Operation × Model) :=
  balance_pass_nodes cfg (m.map Prod.fst) m []

/-- The raw per-VM facts `regenerate_lists` reads from the inventory
provider. -/
structure RawVM where
  name : String
  status : String
  cpus : ℚ
  maxmem : ℚ
  cpu : ℚ
  mem : ℚ
deriving DecidableEq, Repr

/-- The raw per-node facts `regenerate_lists` reads from the inventory
provider. -/
structure RawNode where
  node : String
  maxcpu : ℚ
  maxmem : ℚ
  vms : List RawVM
deriving DecidableEq, Repr

/-- `calculate_vm_points` (lines 376-379). -/
def calculate_vm_points (cfg : Config) (vm : RawVM) : ℚ :=
  if cfg.method = "max" then
    qadd (qmul vm.cpus 5) (qmul (qdiv (qdiv (qdiv vm.maxmem 1024) 1024) 1024) 1)
  else qadd (qmul vm.cpu 5) (qmul (qdiv (qdiv (qdiv vm.mem 1024) 1024) 1024) 1)

/-- The per-VM body of `regenerate_lists` (lines 394-407): only
`"running"` VMs are entered into the node's `vms` dict and added to its
`used_points`. -/
def regen_step (cfg : Config) (acc : NodeInfo) (vm : RawVM) : NodeInfo :=
  if vm.status = "running" then
    let pts := calculate_vm_points cfg vm
    { acc with
      vms := setEntry vm.name ⟨vm.status, pts⟩ acc.vms
      used_points := qadd acc.used_points pts }
  else acc

/-- The per-node body of `regenerate_lists` (lines 383-407): capacity
points from `maxcpu`/`maxmem`, `used_points` starting at `0`, `vms`
starting empty. -/
def regen_node (cfg : Config) (nd : RawNode) : NodeInfo :=
  nd.vms.foldl (regen_step cfg)
    { points := qadd (qmul nd.maxcpu 5) (qmul (qdiv (qdiv (qdiv nd.maxmem 1024) 1024) 1024) 1)
      used_points := 0
      vms := [] }

/-- `regenerate_lists` (lines 382-411) restricted to its effect on
`node_list` (the sorted `vm_list` it also builds is never read by the
passes). -/
def regenerate_lists (cfg : Config) (nodes : List RawNode) : Model :=
  nodes.foldl (fun m nd => setEntry nd.node (regen_node cfg nd) m) []

/-- The points stored in a node's `vms` dict, summed. -/
def vms_points_sum (nd : NodeInfo) : ℚ :=
  qsum (nd.vms.map (fun q => q.2.points))

/-- The spec's `used_points` invariant, as a decidable check: every host
record's `used_points` equals the sum of its VMs' `points`. -/
def invB (m : Model) : Bool :=
  m.all (fun p => decide (p.2.used_points = vms_points_sum p.2))

end ProxmoxBalancer

namespace ProxmoxBalancer

/-!  Generic lemmas about the dict operations and the loop bodies. -/

lemma lookup_cons {α : Type} (k k₂ : String) (v₂ : α) (rest : List (String × α)) :
    List.lookup k ((k₂, v₂) :: rest) = if k = k₂ then some v₂ else List.lookup k rest := by
  by_cases h : k = k₂
  · rw [if_pos h]
    simp only [List.lookup, show (k == k₂) = true from beq_iff_eq.mpr h]
  · rw [if_neg h]
    simp only [List.lookup, show (k == k₂) = false from beq_eq_false_iff_ne.mpr h]

lemma setEntry_lookup_self {α : Type} (k : String) (v : α) (l : List (String × α)) :
    (setEntry k v l).lookup k = some v := by
  induction l with
  | nil => simp [setEntry, lookup_cons]
  | cons p rest ih =>
    obtain ⟨k₂, v₂⟩ := p
    by_cases h : k₂ = k
    · simp [setEntry, h, lookup_cons]
    · simp only [setEntry, if_neg h, lookup_cons, if_neg (Ne.symm h)]
      exact ih

lemma setEntry_fresh {α : Type} (k : String) (v : α) (l : List (String × α))
    (h : k ∉ l.map Prod.fst) : setEntry k v l = l ++ [(k, v)] := by
  induction l with
  | nil => rfl
  | cons p rest ih =>
    simp only [List.map_cons, List.mem_cons] at h
    push_neg at h
    simp only [setEntry, if_neg (Ne.symm h.1), List.cons_append]
    rw [ih h.2]

lemma mem_setEntry {α : Type} (p : String × α) (k : String) (v : α) (l : List (String × α))
    (h : p ∈ setEntry k v l) : p = (k, v) ∨ p ∈ l := by
  induction l with
  | nil => simpa [setEntry] using h
  | cons q rest ih =>
    obtain ⟨k₂, v₂⟩ := q
    by_cases hk : k₂ = k
    · simp only [setEntry, if_pos hk] at h
      rcases List.mem_cons.mp h with rfl | h'
      · exact Or.inl rfl
      · exact Or.inr (List.mem_cons_of_mem _ h')
    · simp only [setEntry, if_neg hk] at h
      rcases List.mem_cons.mp h with rfl | h'
      · exact Or.inr (List.mem_cons_self _ _)
      · rcases ih h' with h₂ | h₂
        · exact Or.inl h₂
        · exact Or.inr (List.mem_cons_of_mem _ h₂)

lemma lookup_model_add_vm_self (m : Model) (t v : String) (e : VMI) :
    (model_add_vm t v e m).lookup t
      = (m.lookup t).map (fun nd => { nd with vms := setEntry v e nd.vms }) := by
  induction m with
  | nil => rfl
  | cons p rest ih =>
    obtain ⟨k, nd⟩ := p
    by_cases h : k = t
    · subst h
      simp [model_add_vm, lookup_cons]
    · simp only [model_add_vm, List.map_cons, if_neg h, lookup_cons,
        if_neg (Ne.symm h)]
      exact ih

lemma lookup_model_add_vm_other (m : Model) (t v : String) (e : VMI) (n : String)
    (h : n ≠ t) : (model_add_vm t v e m).lookup n = m.lookup n := by
  induction m with
  | nil => rfl
  | cons p rest ih =>
    obtain ⟨k, nd⟩ := p
    by_cases hkt : k = t
    · subst hkt
      simp only [model_add_vm, List.map_cons, if_true]
      rw [lookup_cons, lookup_cons, if_neg h, if_neg h]
      exact ih
    · by_cases hk : n = k
      · subst hk
        simp only [model_add_vm, List.map_cons, if_neg hkt]
        rw [lookup_cons, lookup_cons]
        simp
      · simp only [model_add_vm, List.map_cons, if_neg hkt]
        rw [lookup_cons, lookup_cons, if_neg hk, if_neg hk]
        exact ih

lemma lookup_adjust_vms (name : String) (delta : ℚ) (m : Model) (n : String) :
    ((model_adjust_used name delta m).lookup n).map NodeInfo.vms
      = (m.lookup n).map NodeInfo.vms := by
  induction m with
  | nil => rfl
  | cons p rest ih =>
    obtain ⟨k, nd⟩ := p
    by_cases hkt : k = name
    · subst hkt
      by_cases hk : n = k
      · subst hk
        simp [model_adjust_used, lookup_cons]
      · simp only [model_adjust_used, List.map_cons, if_true]
        rw [lookup_cons, lookup_cons, if_neg hk, if_neg hk]
        exact ih
    · by_cases hk : n = k
      · subst hk
        simp only [model_adjust_used, List.map_cons, if_neg hkt]
        rw [lookup_cons, lookup_cons]
        simp
      · simp only [model_adjust_used, List.map_cons, if_neg hkt]
        rw [lookup_cons, lookup_cons, if_neg hk, if_neg hk]
        exact ih

lemma bind_vms_eq {o₁ o₂ : Option NodeInfo}
    (h : o₁.map NodeInfo.vms = o₂.map NodeInfo.vms) (w : String) :
    o₁.bind (fun nd => nd.vms.lookup w) = o₂.bind (fun nd => nd.vms.lookup w) := by
  cases o₁ <;> cases o₂ <;> simp_all

lemma glc_loop_spec (m : Model) : ∀ (cs : List String) (d : String),
    ∃ c l₁ l₂, (glc_loop m cs (some d) (node_points m d)).1 = some c ∧
      d :: cs = l₁ ++ c :: l₂ ∧
      (∀ e ∈ l₁, node_points m e < node_points m c) ∧
      (∀ e ∈ d :: cs, node_points m e ≤ node_points m c) := by
  intro cs
  induction cs with
  | nil =>
    intro d
    exact ⟨d, [], [], rfl, rfl, by simp, by simp⟩
  | cons x cs ih =>
    intro d
    by_cases h : node_points m x > node_points m d
    · obtain ⟨c, l₁, l₂, h1, h2, h3, h4⟩ := ih x
      refine ⟨c, d :: l₁, l₂, ?_, ?_, ?_, ?_⟩
      · rw [← h1]
        simp only [glc_loop, if_neg (Option.some_ne_none d)]
        rw [if_pos h]
      · rw [List.cons_append, ← h2]
      · intro e he
        rcases List.mem_cons.mp he with rfl | he'
        · exact lt_of_lt_of_le h (h4 x (List.mem_cons_self x cs))
        · exact h3 e he'
      · intro e he
        rcases List.mem_cons.mp he with rfl | he'
        · exact le_of_lt (lt_of_lt_of_le h (h4 x (List.mem_cons_self x cs)))
        · exact h4 e he'
    · obtain ⟨c, l₁, l₂, h1, h2, h3, h4⟩ := ih d
      have hstep : (glc_loop m (x :: cs) (some d) (node_points m d)).1
          = (glc_loop m cs (some d) (node_points m d)).1 := by
        simp only [glc_loop, if_neg (Option.some_ne_none d)]
        rw [if_neg h]
      cases l₁ with
      | nil =>
        simp only [List.nil_append] at h2
        obtain ⟨rfl, rfl⟩ : d = c ∧ cs = l₂ := by
          exact ⟨(List.cons.inj h2).1, (List.cons.inj h2).2⟩
        refine ⟨d, [], x :: cs, hstep.trans h1, rfl, by simp, ?_⟩
        intro e he
        rcases List.mem_cons.mp he with rfl | he'
        · exact le_refl _
        · rcases List.mem_cons.mp he' with rfl | he₂
          · exact le_of_not_lt h
          · exact h4 e (List.mem_cons_of_mem d he₂)
      | cons d' l₁' =>
        have hd : d' = d := ((List.cons.inj ((List.cons_append d' l₁' (c :: l₂)) ▸ h2)).1).symm
        have hcs : cs = l₁' ++ c :: l₂ :=
          (List.cons.inj ((List.cons_append d' l₁' (c :: l₂)) ▸ h2)).2
        subst hd
        refine ⟨c, d' :: x :: l₁', l₂, hstep.trans h1, ?_, ?_, ?_⟩
        · simp [hcs]
        · intro e he
          rcases List.mem_cons.mp he with rfl | he'
          · exact h3 e (List.mem_cons_self _ _)
          · rcases List.mem_cons.mp he' with rfl | he₂
            · calc node_points m e ≤ node_points m d' := le_of_not_lt h
                _ < node_points m c := h3 d' (List.mem_cons_self _ _)
            · exact h3 e (List.mem_cons_of_mem _ he₂)
        · intro e he
          rcases List.mem_cons.mp he with rfl | he'
          · exact h4 e (List.mem_cons_self _ _)
          · rcases List.mem_cons.mp he' with rfl | he₂
            · exact le_trans (le_of_not_lt h) (h4 d' (List.mem_cons_self _ _))
            · exact h4 e (List.mem_cons_of_mem _ he₂)

lemma calc_imbalance_loop_ok (avg : ℚ) (h : avg ≠ 0) :
    ∀ (l : List (String × NodeInfo)) (td : ℚ),
      calc_imbalance_loop avg td l
        = .ok (td + (l.map (fun p => |avg - p.2.used_points|)).sum) := by
  intro l
  induction l with
  | nil => intro td; simp [calc_imbalance_loop]
  | cons p rest ih =>
    intro td
    simp only [calc_imbalance_loop, if_neg h]
    rw [ih]
    congr 1
    rw [qadd_eq, qabs_eq, qsub_eq, List.map_cons, List.sum_cons]
    ring

lemma calc_imbalance_loop_zero (td : ℚ) (l : List (String × NodeInfo)) (hl : l ≠ []) :
    calc_imbalance_loop 0 td l = .error () := by
  cases l with
  | nil => exact absurd rfl hl
  | cons p rest => simp [calc_imbalance_loop]

lemma pin_lookup_eq (vm : String) (pins : List String)
    (hwf : ∀ r ∈ pins, (pySplit r ':').length = 2) :
    pin_lookup vm pins = .ok (((pins.map (fun r => pySplit r ':')).find?
        (fun parts => parts.headD "" == vm)).map (fun parts => parts.getD 1 "")) := by
  induction pins with
  | nil => rfl
  | cons r rest ih =>
    have hlen := hwf r (List.mem_cons_self _ _)
    obtain ⟨a, b, hab⟩ := List.length_eq_two.mp hlen
    by_cases h : (pySplit r ':').headD "" = vm
    · rw [hab] at h
      simp only [pin_lookup, hab, List.map_cons, List.find?]
      rw [if_pos h, show (([a, b].headD "") == vm) = true from beq_iff_eq.mpr h]
      simp [List.getD]
    · simp only [pin_lookup, if_neg h, List.map_cons, List.find?]
      rw [show ((pySplit r ':').headD "" == vm) = false from beq_eq_false_iff_ne.mpr h]
      exact ih (fun q hq => hwf q (List.mem_cons_of_mem _ hq))

end ProxmoxBalancer

namespace ProxmoxBalancer

/-- Claim C3: for every non-empty list of candidate hosts,
`get_lowest_candidate` returns the earliest candidate in the list whose
capacity `points` are maximal among all candidates (the running choice
is replaced only when a later candidate's capacity points are strictly
greater); for the empty list it returns the falsy sentinel (`none`,
modelling Python's `0`). -/
theorem get_lowest_candidate_first_max (m : Model) (cs : List String) :
    (cs = [] ∧ get_lowest_candidate m cs = none) ∨
    (∃ c l₁ l₂, get_lowest_candidate m cs = some c ∧ cs = l₁ ++ c :: l₂ ∧
      (∀ d ∈ l₁, node_points m d < node_points m c) ∧
      (∀ d ∈ cs, node_points m d ≤ node_points m c)) := by
  cases cs with
  | nil => exact Or.inl ⟨rfl, rfl⟩
  | cons x cs =>
    right
    have hstep : get_lowest_candidate m (x :: cs)
        = (glc_loop m cs (some x) (node_points m x)).1 := by
      simp [get_lowest_candidate, glc_loop]
    obtain ⟨c, l₁, l₂, h1, h2, h3, h4⟩ := glc_loop_spec m cs x
    exact ⟨c, l₁, l₂, hstep.trans h1, h2, h3, fun d hd => h4 d (h2 ▸ hd)⟩

/-- Claim C10: `calculate_imbalance` divides each host's used points by
the cluster average (total used points / number of hosts, computed by
`get_totals`); it succeeds exactly when the model has at least one host
and the total used points are nonzero — in particular, when every
host's `used_points` is 0 the per-host percentage computation divides
by zero (`.error ()`). -/
theorem calculate_imbalance_total_iff (m : Model) :
    (∃ d, calculate_imbalance m = .ok d) ↔
      m ≠ [] ∧ (m.map (fun p => p.2.used_points)).sum ≠ 0 := by
  rcases eq_or_ne m [] with rfl | hm
  · simp [calculate_imbalance, get_totals]
  · have hlen : m.length ≠ 0 := fun h => hm (List.length_eq_zero.mp h)
    have hlenq : ((m.length : ℚ)) ≠ 0 := Nat.cast_ne_zero.mpr hlen
    simp only [calculate_imbalance, get_totals, if_neg hlen]
    constructor
    · rintro ⟨d, hd⟩
      refine ⟨hm, fun h0 => ?_⟩
      have hq0 : qdiv (qsum (m.map fun p => p.2.used_points)) ((m.length : ℚ)) = 0 := by
        rw [qdiv_eq, qsum_eq, h0, zero_div]
      rw [hq0, calc_imbalance_loop_zero _ _ hm] at hd
      exact absurd hd (by simp)
    · rintro ⟨-, h0⟩
      have hq : qdiv (qsum (m.map fun p => p.2.used_points)) ((m.length : ℚ)) ≠ 0 := by
        rw [qdiv_eq, qsum_eq]
        exact div_ne_zero h0 hlenq
      exact ⟨_, calc_imbalance_loop_ok _ hq m 0⟩

/-- Claim C4: under the totality precondition of `calculate_imbalance`
(nonempty model and nonzero total used points, cf. C10), it returns the
sum over all hosts of |average used points − host's used points| with
average = total used points / number of hosts, and the Load Balancer
Pass is triggered if and only if this sum strictly exceeds
`allowed_disparity * number_of_hosts`. -/
theorem calculate_imbalance_disparity_spec (cfg : Config) (m : Model)
    (hm : m ≠ []) (hS : (m.map (fun p => p.2.used_points)).sum ≠ 0) :
    calculate_imbalance m
        = .ok ((m.map (fun p =>
            |(m.map (fun q => q.2.used_points)).sum / (m.length : ℚ) - p.2.used_points|)).sum) ∧
    balance_triggers cfg m
        = .ok (decide ((m.map (fun p =>
            |(m.map (fun q => q.2.used_points)).sum / (m.length : ℚ) - p.2.used_points|)).sum
          > (m.length : ℚ) * cfg.allowed_disparity)) := by
  have hlen : m.length ≠ 0 := fun h => hm (List.length_eq_zero.mp h)
  have hlenq : ((m.length : ℚ)) ≠ 0 := Nat.cast_ne_zero.mpr hlen
  have havg : qdiv (qsum (m.map fun p => p.2.used_points)) ((m.length : ℚ))
      = (m.map fun p => p.2.used_points).sum / (m.length : ℚ) := by
    rw [qdiv_eq, qsum_eq]
  have havgne : qdiv (qsum (m.map fun p => p.2.used_points)) ((m.length : ℚ)) ≠ 0 := by
    rw [havg]
    exact div_ne_zero hS hlenq
  have h1 : calculate_imbalance m
      = .ok ((m.map (fun p =>
          |(m.map (fun q => q.2.used_points)).sum / (m.length : ℚ) - p.2.used_points|)).sum) := by
    simp only [calculate_imbalance, get_totals, if_neg hlen]
    rw [calc_imbalance_loop_ok _ havgne m 0, zero_add, havg]
  refine ⟨h1, ?_⟩
  simp only [balance_triggers]
  rw [h1, qmul_eq]

/-- The two-host scenario of claim C4: used points 90 and 10, average
50, summed disparity 80, which exceeds 20 * 2 = 40. -/
def c4Model : Model := [("H1", ⟨100, 90, []⟩), ("H2", ⟨100, 10, []⟩)]

/-- A sanitized config with `allowed_disparity = 20` and empty rule
lists, for the claim C4 scenario. -/
def c4Config : Config := ⟨"current", 20, ⟨none, [], some []⟩, true, 8006⟩

/-- Witness for claim C4 at the scenario of the spec: sum 80, trigger
fires (80 > 40). -/
theorem calculate_imbalance_disparity_spec_witness :
    calculate_imbalance c4Model = .ok 80 ∧ balance_triggers c4Config c4Model = .ok true := by
  have h := calculate_imbalance_disparity_spec c4Config c4Model (by decide)
    (by norm_num [c4Model])
  refine ⟨?_, by decide⟩
  rw [h.1]
  norm_num [c4Model]

/-- Host `A` hosts only the violating VM `v1` of the unite group
`[v1, v2]` and no other group member; host `B` hosts nothing. -/
def c5Model : Model := [("A", ⟨10, 0, [("v1", ⟨"running", 1⟩)]⟩), ("B", ⟨10, 0, []⟩)]

/-- Counterexample to claim C5: host `A` hosts no member of the unite
group other than the violating VM `v1` itself (its only VM is `v1`),
yet it is in the candidate set built by `unite()` — the code includes
the violating VM itself in `rule_vms`, so a host hosting only that VM
is a candidate, contradicting the claim. -/
theorem unite_candidates_include_lone_self_host :
    uniteCandidates c5Model ["v1", "v2"] = ["A"] ∧ node_vms_of c5Model "A" = ["v1"] := by
  decide

/-- Claim C5 as amended: the candidate set considered by `unite()`
consists exactly of the hosts that host at least one member of the
unite group, *including the violating VM itself* — not only hosts with
at least one other member. -/
theorem uniteCandidates_characterization (m : Model) (rule : List String) (x : String) :
    x ∈ uniteCandidates m rule ↔ ∃ nd, (x, nd) ∈ m ∧ ∃ n ∈ node_vm_names nd, n ∈ rule := by
  simp only [uniteCandidates, List.mem_map, List.mem_filter, List.any_eq_true,
    node_vm_names, List.contains, List.elem_eq_mem, decide_eq_true_eq]
  constructor
  · rintro ⟨⟨k, nd⟩, ⟨hmem, hany⟩, rfl⟩
    exact ⟨nd, hmem, hany⟩
  · rintro ⟨nd, hmem, hex⟩
    exact ⟨(x, nd), ⟨hmem, hex⟩, rfl⟩

end ProxmoxBalancer

namespace ProxmoxBalancer

/-- The rule lookup exactly as claim C7 describes it: the first category
in the fixed order pin, separate, unite whose declared list structurally
contains the name — exact match on the first component of a pin pair,
group membership for separate and unite groups — and no rule otherwise;
an absent category behaves like an empty list of rules. -/
def claimFirstRule (cfg : Config) (vm_name : String) : Option RuleR :=
  match ((cfg.rules.pin.getD []).map (fun r => pySplit r ':')).find?
      (fun parts => parts.headD "" == vm_name) with
  | some parts => some (.pinned (parts.getD 1 ""))
  | none =>
    match group_lookup vm_name cfg.rules.separate with
    | some g => some (.sep g)
    | none =>
      match group_lookup vm_name (cfg.rules.unite.getD []) with
      | some g => some (.unite g)
      | none => none

/-- Claim C7: for every VM name, `get_rule` returns the rule of the
first category, in the fixed order Pin then Separate then Unite, whose
declared list structurally contains the name; an earlier category wins
when the name appears in several, and no rule is returned when it
appears in none.  The hypothesis states that pin rules are pairs
(`"vm:host"`), as the claim assumes; a malformed pin entry matching the
name would instead raise `IndexError`. -/
theorem get_rule_first_category (cfg : Config) (vm_name : String)
    (hwf : ∀ r ∈ cfg.rules.pin.getD [], (pySplit r ':').length = 2) :
    get_rule cfg vm_name = .ok (claimFirstRule cfg vm_name) := by
  have tail_eq :
      (match group_lookup vm_name cfg.rules.separate with
        | some g => Except.ok (some (RuleR.sep g))
        | none =>
          match cfg.rules.unite with
          | some us =>
            match group_lookup vm_name us with
            | some g => Except.ok (some (RuleR.unite g))
            | none => (.ok none : Except Unit (Option RuleR))
          | none => .ok none)
      = .ok (match group_lookup vm_name cfg.rules.separate with
        | some g => some (RuleR.sep g)
        | none =>
          match group_lookup vm_name (cfg.rules.unite.getD []) with
          | some g => some (.unite g)
          | none => none) := by
    cases hsep : group_lookup vm_name cfg.rules.separate with
    | some g => rfl
    | none =>
      cases hu : cfg.rules.unite with
      | none => rfl
      | some us => cases hg : group_lookup vm_name us <;> simp [hu, hg]
  cases hp : cfg.rules.pin with
  | none =>
    simp only [get_rule, claimFirstRule, hp, Option.getD, List.map_nil, List.find?]
    exact tail_eq
  | some pins =>
    rw [hp] at hwf
    simp only [get_rule, claimFirstRule, hp, Option.getD]
    rw [pin_lookup_eq vm_name pins hwf]
    cases hf : (pins.map (fun r => pySplit r ':')).find?
        (fun parts => parts.headD "" == vm_name) with
    | some parts => simp
    | none => simpa using tail_eq

/-- A config whose VM `vmX` appears in all three rule categories. -/
def c7Config : Config :=
  ⟨"current", 20, ⟨some ["vmX:H1"], ["vmX,vmY"], some ["vmX,vmZ"]⟩, true, 8006⟩

/-- Witness for claim C7: `vmX` is pinned, separated and united, and
the pin rule wins. -/
theorem get_rule_first_category_witness :
    get_rule c7Config "vmX" = .ok (some (.pinned "H1"))
      ∧ claimFirstRule c7Config "vmX" = some (.pinned "H1") := by
  have h := get_rule_first_category c7Config "vmX" (by decide)
  exact ⟨h.trans (by decide), by decide⟩

/-- Claim C9: for a separate rule violated by a VM, if every host in
the model hosts at least one *other* member of the separate group, the
candidate set of `separate()` is empty, the "no suitable candidate"
diagnostic fires, the Violation Resolution Pass emits no Operation for
that VM and leaves the projected model unchanged, and the pass
continues with the remaining VMs. -/
theorem separate_unsatisfiable_skips (cfg : Config) (node_name vm_name : String)
    (m : Model) (g : List String)
    (hr : get_rule cfg vm_name = .ok (some (.sep g)))
    (hv : should_separate g vm_name (node_vms_of m node_name) = true)
    (hall : ∀ p ∈ m, ∃ n ∈ node_vm_names p.2, n ∈ g ∧ n ≠ vm_name) :
    separateCandidates m g vm_name = [] ∧
    (separate m g vm_name).2 = true ∧
    rule_pass_vm cfg node_name vm_name m = .ok (none, m) ∧
    ∀ (rest : List String) (ops : List Operation),
      rule_pass_vms cfg node_name (vm_name :: rest) m ops
        = rule_pass_vms cfg node_name rest m ops := by
  have hcand : separateCandidates m g vm_name = [] := by
    simp only [separateCandidates, List.map_eq_nil_iff, List.filter_eq_nil_iff]
    intro p hp
    obtain ⟨n, hn, hgmem, hne⟩ := hall p hp
    have hany : (node_vm_names p.2).any
        (fun item => (g.filter (fun x => x ≠ vm_name)).contains item) = true := by
      rw [List.any_eq_true]
      refine ⟨n, hn, ?_⟩
      rw [List.contains, List.elem_eq_mem, decide_eq_true_eq]
      exact List.mem_filter.mpr ⟨hgmem, by simpa using hne⟩
    simp [node_vm_names] at hany
    simp [node_vm_names, hany]
  have h1 : (separate m g vm_name).1 = none := by
    simp [separate, hcand, get_lowest_candidate, glc_loop]
  have h2 : (separate m g vm_name).2 = true := by
    simp [separate, hcand]
  have hstep : rule_pass_vm cfg node_name vm_name m = .ok (none, m) := by
    simp only [rule_pass_vm, rule_pass_target, hr, hv, if_true, h1]
  refine ⟨hcand, h2, hstep, fun rest ops => ?_⟩
  simp only [rule_pass_vms, hstep]

/-- A config with the single separate group `a,b,c`. -/
def c9Config : Config := ⟨"current", 20, ⟨none, ["a,b,c"], none⟩, true, 8006⟩

/-- VM `a` violates the separate rule on host `A` (which also hosts
`b`); every host hosts some other member of the group (`A` hosts `b`,
`B` hosts `c`). -/
def c9Model : Model :=
  [("A", ⟨10, 2, [("a", ⟨"running", 1⟩), ("b", ⟨"running", 1⟩)]⟩),
   ("B", ⟨10, 1, [("c", ⟨"running", 1⟩)]⟩)]

/-- Witness for claim C9 on the scenario-E model. -/
theorem separate_unsatisfiable_skips_witness :
    separateCandidates c9Model ["a", "b", "c"] "a" = [] ∧
    rule_pass_vm c9Config "A" "a" c9Model = .ok (none, c9Model) ∧
    rule_pass_vms c9Config "A" ["a"] c9Model [] = rule_pass_vms c9Config "A" [] c9Model [] := by
  have h := separate_unsatisfiable_skips c9Config "A" "a" c9Model ["a", "b", "c"]
    (by decide) (by decide) (by decide)
  exact ⟨h.1, h.2.2.1, h.2.2.2 [] []⟩

end ProxmoxBalancer

namespace ProxmoxBalancer

/-- Claim C2 as amended: whenever the Violation Resolution Pass appends
an Operation for a VM, it *copies* that VM's entry into the target
host's VM set but does **not** remove it from the source host's VM set:
the source host's record is unchanged (so the entry is still there),
every host other than the target is unchanged, and the target's `vms`
dict gains the entry — after such a step the VM appears under both
hosts in the projected model. -/
theorem rule_pass_vm_appends (cfg : Config) (node_name vm_name : String) (m : Model)
    (op : Operation) (m₂ : Model)
    (h : rule_pass_vm cfg node_name vm_name m = .ok (some op, m₂)) :
    op.vm_name = vm_name ∧ op.host = node_name ∧ op.target ≠ node_name ∧
    m₂.lookup node_name = m.lookup node_name ∧
    (∀ n, n ≠ op.target → m₂.lookup n = m.lookup n) ∧
    ∃ entry, (m.lookup node_name).bind (fun nd => nd.vms.lookup vm_name) = some entry ∧
      m₂ = model_add_vm op.target vm_name entry m ∧
      (m₂.lookup node_name).bind (fun nd => nd.vms.lookup vm_name) = some entry ∧
      ∀ nd₂, m₂.lookup op.target = some nd₂ → nd₂.vms.lookup vm_name = some entry := by
  unfold rule_pass_vm at h
  split at h
  · exact absurd h (by simp)
  · simp at h
  · split at h
    · rename_i t ht
      split at h
      · rename_i hcond
        split at h
        · rename_i entry hentry
          simp only [Except.ok.injEq, Prod.mk.injEq, Option.some.injEq] at h
          obtain ⟨hop, hm2⟩ := h
          subst hop
          subst hm2
          refine ⟨rfl, rfl, hcond.2, ?_, ?_, entry, hentry, rfl, ?_, ?_⟩
          · exact lookup_model_add_vm_other m t vm_name entry node_name (Ne.symm hcond.2)
          · intro n hn
            exact lookup_model_add_vm_other m t vm_name entry n hn
          · rw [lookup_model_add_vm_other m t vm_name entry node_name (Ne.symm hcond.2)]
            exact hentry
          · intro nd₂ h₂
            rw [lookup_model_add_vm_self] at h₂
            obtain ⟨nd, hnd, rfl⟩ := Option.map_eq_some.mp h₂
            exact setEntry_lookup_self vm_name entry nd.vms
        · exact absurd h (by simp)
      · simp at h
    · simp at h

/-- A config pinning VM `v` to host `B`. -/
def c2Config : Config := ⟨"current", 20, ⟨some ["v:B"], [], none⟩, true, 8006⟩

/-- `v` currently runs on host `A`, violating its pin to `B`. -/
def c2Model : Model := [("A", ⟨5, 5, [("v", ⟨"running", 5⟩)]⟩), ("B", ⟨5, 0, []⟩)]

/-- The projected model after `rule_pass` on `c2Model`: `v` appears
under both `A` and `B`. -/
def c2After : Model :=
  [("A", ⟨5, 5, [("v", ⟨"running", 5⟩)]⟩), ("B", ⟨5, 0, [("v", ⟨"running", 5⟩)]⟩)]

/-- Counterexample to claim C2: `rule_pass` emits the Operation moving
`v` from `A` to `B`, but afterwards `v` is a member of **both** hosts'
VM sets — the entry was not removed from the source, so the VM does not
belong to exactly one host in the projected model. -/
theorem rule_pass_duplicates_vm_entry :
    rule_pass c2Config c2Model = .ok ([⟨"v", "A", "B"⟩], c2After) ∧
    "v" ∈ node_vms_of c2After "A" ∧ "v" ∈ node_vms_of c2After "B" := by
  decide

/-- Witness for the amended claim C2 at the pin scenario: the source
host's record is unchanged and still holds the VM's entry. -/
theorem rule_pass_vm_appends_witness :
    c2After.lookup "A" = c2Model.lookup "A" ∧
    (c2After.lookup "A").bind (fun nd => nd.vms.lookup "v") = some ⟨"running", 5⟩ := by
  have h := rule_pass_vm_appends c2Config "A" "v" c2Model ⟨"v", "A", "B"⟩ c2After (by decide)
  obtain ⟨-, -, -, h4, -, entry, he1, -, he3, -⟩ := h
  have heq : entry = (⟨"running", 5⟩ : VMI) :=
    Option.some.inj (he1.symm.trans (by decide))
  exact ⟨h4, heq ▸ he3⟩

lemma regen_fold_inv (cfg : Config) :
    ∀ (vms : List RawVM) (acc : NodeInfo),
      acc.used_points = vms_points_sum acc →
      ((vms.filter (fun v => v.status == "running")).map RawVM.name).Nodup →
      (∀ v ∈ vms, v.status = "running" → v.name ∉ acc.vms.map Prod.fst) →
      (vms.foldl (regen_step cfg) acc).used_points
        = vms_points_sum (vms.foldl (regen_step cfg) acc) := by
  intro vms
  induction vms with
  | nil => intro acc h1 _ _; exact h1
  | cons v rest ih =>
    intro acc h1 h2 h3
    by_cases hst : v.status = "running"
    · have hfresh : v.name ∉ acc.vms.map Prod.fst := h3 v (List.mem_cons_self _ _) hst
      have hfilter : (v :: rest).filter (fun v => v.status == "running")
          = v :: rest.filter (fun v => v.status == "running") := by
        simp [List.filter_cons, hst]
      rw [hfilter] at h2
      simp only [List.map_cons, List.nodup_cons] at h2
      obtain ⟨hvn, h2tail⟩ := h2
      simp only [List.foldl_cons]
      have hstep : regen_step cfg acc v = { acc with
          vms := acc.vms ++ [(v.name, ⟨v.status, calculate_vm_points cfg v⟩)],
          used_points := qadd acc.used_points (calculate_vm_points cfg v) } := by
        simp only [regen_step, if_pos hst]
        rw [setEntry_fresh _ _ _ hfresh]
      rw [hstep]
      apply ih
      · simp only [vms_points_sum, List.map_append, List.map_cons, List.map_nil]
        rw [qsum_eq, List.sum_append, List.sum_cons, List.sum_nil, qadd_eq, h1,
          vms_points_sum, qsum_eq]
        ring
      · exact h2tail
      · intro w hw hwst
        simp only [List.map_append, List.map_cons, List.map_nil, List.mem_append,
          List.mem_singleton]
        rintro (hw1 | hw2)
        · exact h3 w (List.mem_cons_of_mem _ hw) hwst hw1
        · apply hvn
          rw [← hw2]
          exact List.mem_map.mpr
            ⟨w, List.mem_filter.mpr ⟨hw, beq_iff_eq.mpr hwst⟩, rfl⟩
    · simp only [List.foldl_cons, regen_step, if_neg hst]
      have hfilter : (v :: rest).filter (fun v => v.status == "running")
          = rest.filter (fun v => v.status == "running") := by
        simp [List.filter_cons, hst]
      rw [hfilter] at h2
      exact ih acc h1 h2 (fun w hw hwst => h3 w (List.mem_cons_of_mem _ hw) hwst)

lemma regen_node_inv (cfg : Config) (nd : RawNode)
    (h : (nd.vms.map RawVM.name).Nodup) :
    (regen_node cfg nd).used_points = vms_points_sum (regen_node cfg nd) := by
  apply regen_fold_inv
  · rfl
  · exact ((List.filter_sublist _).map RawVM.name).nodup h
  · simp

/-- Claim C1 as amended: in the state built by `regenerate_lists` (for
inventories without duplicate VM names within a node), every host's
`used_points` equals the sum of its VMs' `points`.  The passes do NOT
preserve this equality: `rule_pass` copies VM entries without touching
`used_points` and `balance_pass` moves `used_points` without touching
VM membership (see the counterexample). -/
theorem used_points_invariant_after_regenerate (cfg : Config) (nodes : List RawNode)
    (h : ∀ nd ∈ nodes, (nd.vms.map RawVM.name).Nodup) :
    invB (regenerate_lists cfg nodes) = true := by
  rw [invB, List.all_eq_true]
  suffices hmem : ∀ p ∈ regenerate_lists cfg nodes, p.2.used_points = vms_points_sum p.2 by
    intro p hp
    exact decide_eq_true (hmem p hp)
  have key : ∀ (ns : List RawNode) (macc : Model),
      (∀ p ∈ macc, p.2.used_points = vms_points_sum p.2) →
      (∀ nd ∈ ns, (nd.vms.map RawVM.name).Nodup) →
      ∀ p ∈ ns.foldl (fun m nd => setEntry nd.node (regen_node cfg nd) m) macc,
        p.2.used_points = vms_points_sum p.2 := by
    intro ns
    induction ns with
    | nil => intro macc hacc _ p hp; exact hacc p hp
    | cons nd rest ih =>
      intro macc hacc hnod p hp
      simp only [List.foldl_cons] at hp
      refine ih _ ?_ (fun q hq => hnod q (List.mem_cons_of_mem _ hq)) p hp
      intro q hq
      rcases mem_setEntry q _ _ _ hq with rfl | hq'
      · exact regen_node_inv cfg nd (hnod nd (List.mem_cons_self _ _))
      · exact hacc q hq'
  exact key nodes [] (by simp) h

/-- A config pinning VM `v` to host `B` (no separate/unite rules). -/
def c1Config : Config := ⟨"current", 20, ⟨some ["v:B"], [], none⟩, true, 8006⟩

/-- Inventory: `v` runs on `A` (5 demand points), `B` is empty. -/
def c1Raw : List RawNode := [⟨"A", 1, 0, [⟨"v", "running", 0, 0, 1, 0⟩]⟩, ⟨"B", 1, 0, []⟩]

/-- A rule-free config for the `balance_pass` half of the C1
counterexample. -/
def c1bConfig : Config := ⟨"current", 20, ⟨none, [], some []⟩, true, 8006⟩

/-- Inventory: `w` and `x` (1 point each) on `A`, `B` empty — an
imbalance `balance_pass` will act on. -/
def c1bRaw : List RawNode :=
  [⟨"A", 1, 0, [⟨"w", "running", 0, 0, mkRat 1 5, 0⟩, ⟨"x", "running", 0, 0, mkRat 1 5, 0⟩]⟩,
   ⟨"B", 1, 0, []⟩]

/-- Counterexample to claim C1: starting from states built by
`regenerate_lists` where `used_points = Σ points` holds, one planned
operation of `rule_pass` breaks the equality (the entry is copied to
the target whose `used_points` stays 0), and one planned operation of
`balance_pass` breaks it as well (`used_points` moves while the VM
entries stay put). -/
theorem rule_pass_breaks_used_points_invariant :
    invB (regenerate_lists c1Config c1Raw) = true ∧
    (rule_pass c1Config (regenerate_lists c1Config c1Raw)).toOption.map
        (fun r => (r.1.length, invB r.2)) = some (1, false) ∧
    invB (regenerate_lists c1bConfig c1bRaw) = true ∧
    (balance_pass c1bConfig (regenerate_lists c1bConfig c1bRaw)).toOption.map
        (fun r => (r.1.length, invB r.2)) = some (1, false) := by
  decide

/-- Witness for the amended claim C1 at the concrete inventory. -/
theorem used_points_invariant_after_regenerate_witness :
    invB (regenerate_lists c1Config c1Raw) = true :=
  used_points_invariant_after_regenerate c1Config c1Raw (by decide)

end ProxmoxBalancer

namespace ProxmoxBalancer

lemma balance_pass_vms_skips (cfg : Config) (v : String) (m : Model)
    (hskip : is_pinned cfg v = .ok true ∨
      (∀ n e, (m.lookup n).bind (fun nd => nd.vms.lookup v) = some e → e.status = "stopped")) :
    ∀ (vs : List String) (node : String) (m₁ : Model) (ops : List Operation),
      (∀ n, (m₁.lookup n).map NodeInfo.vms = (m.lookup n).map NodeInfo.vms) →
      (∀ op ∈ ops, op.vm_name ≠ v) →
      ∀ (ops₂ : List Operation) (m₂ : Model),
        balance_pass_vms cfg node vs m₁ ops = .ok (ops₂, m₂) →
        (∀ op ∈ ops₂, op.vm_name ≠ v) ∧
        (∀ n, (m₂.lookup n).map NodeInfo.vms = (m.lookup n).map NodeInfo.vms) := by
  intro vs
  induction vs with
  | nil =>
    intro node m₁ ops hagree hops ops₂ m₂ h
    simp only [balance_pass_vms, Except.ok.injEq, Prod.mk.injEq] at h
    obtain ⟨rfl, rfl⟩ := h
    exact ⟨hops, hagree⟩
  | cons w rest ih =>
    intro node m₁ ops hagree hops ops₂ m₂ h
    rw [balance_pass_vms] at h
    split at h
    · exact absurd h (by simp)
    · rename_i vm hvm
      split at h
      · exact ih node m₁ ops hagree hops ops₂ m₂ h
      · rename_i hstop
        split at h
        · exact absurd h (by simp)
        · exact ih node m₁ ops hagree hops ops₂ m₂ h
        · rename_i hpin
          split at h
          · exact absurd h (by simp)
          · exact ih node m₁ ops hagree hops ops₂ m₂ h
          · rename_i t ht
            split at h
            · rename_i htne
              have hwv : w ≠ v := by
                rintro rfl
                rcases hskip with hp | hs
                · rw [hp] at hpin
                  exact absurd (Except.ok.inj hpin) (by simp)
                · have hmv : (m.lookup node).bind (fun nd => nd.vms.lookup w) = some vm := by
                    rw [← bind_vms_eq (hagree node) w]
                    exact hvm
                  exact hstop (hs node vm hmv)
              refine ih node _ _ ?_ ?_ ops₂ m₂ h
              · intro n
                rw [lookup_adjust_vms, lookup_adjust_vms]
                exact hagree n
              · intro op hop
                rcases List.mem_append.mp hop with hop₁ | hop₂
                · exact hops op hop₁
                · rw [List.mem_singleton.mp hop₂]
                  exact hwv
            · exact ih node m₁ ops hagree hops ops₂ m₂ h

lemma balance_pass_nodes_skips (cfg : Config) (v : String) (m : Model)
    (hskip : is_pinned cfg v = .ok true ∨
      (∀ n e, (m.lookup n).bind (fun nd => nd.vms.lookup v) = some e → e.status = "stopped")) :
    ∀ (ns : List String) (m₁ : Model) (ops : List Operation),
      (∀ n, (m₁.lookup n).map NodeInfo.vms = (m.lookup n).map NodeInfo.vms) →
      (∀ op ∈ ops, op.vm_name ≠ v) →
      ∀ (ops₂ : List Operation) (m₂ : Model),
        balance_pass_nodes cfg ns m₁ ops = .ok (ops₂, m₂) →
        (∀ op ∈ ops₂, op.vm_name ≠ v) ∧
        (∀ n, (m₂.lookup n).map NodeInfo.vms = (m.lookup n).map NodeInfo.vms) := by
  intro ns
  induction ns with
  | nil =>
    intro m₁ ops hagree hops ops₂ m₂ h
    simp only [balance_pass_nodes, Except.ok.injEq, Prod.mk.injEq] at h
    obtain ⟨rfl, rfl⟩ := h
    exact ⟨hops, hagree⟩
  | cons n rest ih =>
    intro m₁ ops hagree hops ops₂ m₂ h
    rw [balance_pass_nodes] at h
    split at h
    · exact absurd h (by simp)
    · rename_i ops₃ m₃ h₃
      obtain ⟨hops₃, hagree₃⟩ :=
        balance_pass_vms_skips cfg v m hskip _ n m₁ ops hagree hops ops₃ m₃ h₃
      exact ih m₃ ops₃ hagree₃ hops₃ ops₂ m₂ h

/-- Claim C6 as amended: for every VM whose status is `"stopped"` — not
"not running": the code tests `status == "stopped"`, so e.g. a paused
VM is balanced (see the counterexample) — or whose name matches a pin
rule, the Load Balancer Pass emits no Operation with that VM as its
subject, in every input model.  (Models built by `regenerate_lists`
contain only `"running"` VMs, so the two readings coincide there.) -/
theorem balance_pass_skips_stopped_and_pinned (cfg : Config) (m : Model) (v : String)
    (hskip : is_pinned cfg v = .ok true ∨
      (∀ n e, (m.lookup n).bind (fun nd => nd.vms.lookup v) = some e → e.status = "stopped"))
    (ops : List Operation) (m₂ : Model)
    (hrun : balance_pass cfg m = .ok (ops, m₂)) :
    ops.all (fun op => op.vm_name != v) = true := by
  have h := balance_pass_nodes_skips cfg v m hskip (m.map Prod.fst) m [] (fun n => rfl)
    (by simp) ops m₂ hrun
  rw [List.all_eq_true]
  intro op hop
  exact bne_iff_ne.mpr (h.1 op hop)

/-- A rule-free sanitized config for the C6 counterexample. -/
def c6Config : Config := ⟨"current", 20, ⟨none, [], some []⟩, true, 8006⟩

/-- `v` is `"paused"` — not running, but also not `"stopped"`. -/
def c6Model : Model := [("A", ⟨100, 10, [("v", ⟨"paused", 1⟩)]⟩), ("B", ⟨100, 0, []⟩)]

/-- Counterexample to claim C6: VM `v` is not running (status
`"paused"`) and not pinned, yet `balance_pass` emits an Operation with
`v` as its subject — the code only skips on `status == "stopped"`. -/
theorem balance_pass_moves_non_running_vm :
    (c6Model.lookup "A").bind (fun nd => nd.vms.lookup "v") = some ⟨"paused", 1⟩ ∧
    is_pinned c6Config "v" = .ok false ∧
    (balance_pass c6Config c6Model).toOption.map (fun r => r.1)
      = some [⟨"v", "A", "B"⟩] := by
  decide

/-- A config pinning `p` to host `A`. -/
def c6wConfig : Config := ⟨"current", 20, ⟨some ["p:A"], [], some []⟩, true, 8006⟩

/-- Host `A` runs pinned `p` and movable `w`; `B` is empty. -/
def c6wModel : Model :=
  [("A", ⟨100, 6, [("p", ⟨"running", 5⟩), ("w", ⟨"running", 1⟩)]⟩), ("B", ⟨100, 0, []⟩)]

/-- Witness for the amended claim C6: `balance_pass` does emit an
operation (for `w`), but none whose subject is the pinned `p`. -/
theorem balance_pass_skips_stopped_and_pinned_witness :
    is_pinned c6wConfig "p" = .ok true ∧
    ([⟨"w", "A", "B"⟩] : List Operation).all (fun op => op.vm_name != "p") = true := by
  refine ⟨by decide, ?_⟩
  exact balance_pass_skips_stopped_and_pinned c6wConfig c6wModel "p" (Or.inl (by decide))
    [⟨"w", "A", "B"⟩]
    [("A", ⟨100, 5, [("p", ⟨"running", 5⟩), ("w", ⟨"running", 1⟩)]⟩), ("B", ⟨100, 1, []⟩)]
    (by decide)

/-- The fully-empty raw configuration: every policy key absent. -/
def c8Raw : RawConfig := ⟨none, none, none, none, none⟩

/-- A model with an obvious best host (`B`) for `v`. -/
def c8Model : Model := [("A", ⟨100, 10, [("v", ⟨"running", 1⟩)]⟩), ("B", ⟨100, 0, []⟩)]

/-- The same sanitized config with the unite key present and empty —
what the spec's defaulting would produce. -/
def c8ConfigFixed : Config := ⟨"current", 20, ⟨none, [], some []⟩, true, 8006⟩

/-- Claim C8, evidence of the code bug: the `__init__` defaulting gives
every other absent key its stated default (`method`, `allowed_disparity`,
`rules.separate`, `async`, `port`) and `get_rule` tolerates the absent
unite key, but `rules["unite"]` is NOT defaulted, and
`calculate_best_host` reads it unguarded: with no unite rule list
configured it raises `KeyError` (`.error ()`) instead of behaving as
with the default empty list — with the key present and empty it returns
the best host `B`. -/
theorem missing_unite_key_breaks_calculate_best_host :
    (sanitize_config c8Raw).method = "current" ∧
    (sanitize_config c8Raw).allowed_disparity = 20 ∧
    (sanitize_config c8Raw).rules.separate = [] ∧
    (sanitize_config c8Raw).asyncFlag = true ∧
    (sanitize_config c8Raw).port = 8006 ∧
    (sanitize_config c8Raw).rules.unite = none ∧
    get_rule (sanitize_config c8Raw) "v" = .ok none ∧
    calculate_best_host (sanitize_config c8Raw) c8Model "A" "v" = .error () ∧
    calculate_best_host c8ConfigFixed c8Model "A" "v" = .ok (some "B") := by
  decide

end ProxmoxBalancer
